import Mathlib

/-!
Verification of the wikimedia-parser data model and orchestration logic.

The definitions below are a shallow embedding of `src/wikimedia_parser/enums.py`,
`src/wikimedia_parser/types.py` and `src/wikimedia_parser/parser.py`:

* Python `datetime.date` values become the `Date` structure with the lexicographic
  comparison Python uses on dates.
* The three `StrEnum` classes become inductive types with their `.value` strings
  and a fails-on-unknown-string conversion (Python `Enum(value)` raises `ValueError`).
* `PageStatisticsRecord` keeps Python's custom `__eq__`/`__hash__` (which ignore
  the `views` field) as the Boolean relation `recordEq` and the key-tuple
  `recordHashKey`.
* Python's `list(set(xs))` / `DataFrame.drop_duplicates()` keep the first
  occurrence of each equivalence class; both are modelled by `pySet`.
* Python's `sorted` is a stable sort; it is modelled by `List.insertionSort`,
  which Mathlib proves stable (`List.sublist_insertionSort`).
* Raising an exception is modelled by `Except PyError` / `Option`.
-/

/-- Model of Python `datetime.date`: a year/month/day triple.  `datetime.date`
compares lexicographically on `(year, month, day)`. -/
structure Date where
  year : Nat
  month : Nat
  day : Nat
deriving DecidableEq, Repr

/-- Python `<` on `datetime.date`: lexicographic on `(year, month, day)`. -/
def Date.lt (a b : Date) : Prop :=
  a.year < b.year ∨ (a.year = b.year ∧
    (a.month < b.month ∨ (a.month = b.month ∧ a.day < b.day)))

/-- Python `<=` on `datetime.date`. -/
def Date.le (a b : Date) : Prop :=
  Date.lt a b ∨ a = b

instance (a b : Date) : Decidable (Date.lt a b) := by
  unfold Date.lt; infer_instance

instance (a b : Date) : Decidable (Date.le a b) := by
  unfold Date.le; infer_instance

theorem Date.le_total_thm (a b : Date) : Date.le a b ∨ Date.le b a := by
  cases a; cases b
  simp only [Date.le, Date.lt, Date.mk.injEq]
  omega

theorem Date.le_trans_thm {a b c : Date} (h₁ : Date.le a b) (h₂ : Date.le b c) :
    Date.le a c := by
  cases a; cases b; cases c
  simp only [Date.le, Date.lt, Date.mk.injEq] at h₁ h₂ ⊢
  omega

theorem Date.eq_of_le_of_le {a b : Date} (h₁ : Date.le a b) (h₂ : Date.le b a) :
    a = b := by
  cases a; cases b
  simp only [Date.le, Date.lt, Date.mk.injEq] at h₁ h₂ ⊢
  omega

theorem Date.lt_of_le_of_ne {a b : Date} (h₁ : Date.le a b) (h₂ : a ≠ b) :
    Date.lt a b := by
  rcases h₁ with h | h
  · exact h
  · exact absurd h h₂

theorem Date.le_of_lt_thm {a b : Date} (h : Date.lt a b) : Date.le a b := Or.inl h

theorem Date.le_refl_thm (a : Date) : Date.le a a := Or.inr rfl

instance : IsTotal Date Date.le := ⟨Date.le_total_thm⟩

instance : IsTrans Date Date.le := ⟨fun _ _ _ => Date.le_trans_thm⟩

/-- Zero-padded decimal rendering of a natural number, as Python `strftime`
field formatting does. -/
def padNat (width n : Nat) : String :=
  let s := toString n
  String.mk (List.replicate (width - s.length) '0') ++ s

/-- `d.strftime("%Y%m%d00")`: four-digit year, two-digit month and day, and the
literal suffix `00`. -/
def Date.strftimeYmd00 (d : Date) : String :=
  padNat 4 d.year ++ padNat 2 d.month ++ padNat 2 d.day ++ "00"

/-- `enums.AccessType` (a `StrEnum`). -/
inductive AccessType where
  | Any
  | Desktop
  | MobileWeb
  | MobileApp
deriving DecidableEq, Repr

/-- The string value of each `AccessType` member. -/
def AccessType.value : AccessType → String
  | .Any => "all-access"
  | .Desktop => "desktop"
  | .MobileWeb => "mobile-web"
  | .MobileApp => "mobile-app"

/-- `AccessType(s)`: look a string up among the members; Python raises
`ValueError` when no member has that value (modelled by `none`). -/
def AccessType.ofValue (s : String) : Option AccessType :=
  if s = "all-access" then some .Any
  else if s = "desktop" then some .Desktop
  else if s = "mobile-web" then some .MobileWeb
  else if s = "mobile-app" then some .MobileApp
  else none

/-- `enums.UserAgent` (a `StrEnum`). -/
inductive UserAgent where
  | Any
  | User
  | Spider
  | Automated
deriving DecidableEq, Repr

/-- The string value of each `UserAgent` member. -/
def UserAgent.value : UserAgent → String
  | .Any => "all-agents"
  | .User => "user"
  | .Spider => "spider"
  | .Automated => "automated"

/-- `UserAgent(s)`: fails on unknown strings. -/
def UserAgent.ofValue (s : String) : Option UserAgent :=
  if s = "all-agents" then some .Any
  else if s = "user" then some .User
  else if s = "spider" then some .Spider
  else if s = "automated" then some .Automated
  else none

/-- `enums.DateGranularity` (a `StrEnum`).  Note the source gives `Daily` the
lowercase value `daily` but `Monthly` the capitalized value `Monthly`. -/
inductive DateGranularity where
  | Daily
  | Monthly
deriving DecidableEq, Repr

/-- The string value of each `DateGranularity` member, exactly as in
`enums.py`: `daily` and `Monthly`. -/
def DateGranularity.value : DateGranularity → String
  | .Daily => "daily"
  | .Monthly => "Monthly"

/-- `DateGranularity(s)`: fails on unknown strings; only the exact member
values `daily` and `Monthly` are accepted. -/
def DateGranularity.ofValue (s : String) : Option DateGranularity :=
  if s = "daily" then some .Daily
  else if s = "Monthly" then some .Monthly
  else none

/-- `types.PageStatisticsRecord`: one row of returned data. -/
structure PageStatisticsRecord where
  project : String
  article : String
  granularity : DateGranularity
  timestamp : Date
  access : AccessType
  agent : UserAgent
  views : Int
deriving DecidableEq, Repr

/-- `PageStatisticsRecord.__eq__`: field-by-field comparison of `project`,
`article`, `granularity`, `timestamp`, `access` and `agent` — the `views`
field is deliberately not compared. -/
def recordEq (a b : PageStatisticsRecord) : Bool :=
  a.project == b.project && a.article == b.article &&
    a.granularity == b.granularity && a.timestamp == b.timestamp &&
    a.access == b.access && a.agent == b.agent

/-- `PageStatisticsRecord.__hash__` hashes the tuple of all fields except
`views`; we model the hash by that key tuple itself, so hash equality is
tuple equality. -/
def recordHashKey (r : PageStatisticsRecord) :
    String × String × DateGranularity × Date × AccessType × UserAgent :=
  (r.project, r.article, r.granularity, r.timestamp, r.access, r.agent)

theorem recordEq_iff {a b : PageStatisticsRecord} :
    recordEq a b = true ↔
      (a.project = b.project ∧ a.article = b.article ∧
       a.granularity = b.granularity ∧ a.timestamp = b.timestamp ∧
       a.access = b.access ∧ a.agent = b.agent) := by
  simp [recordEq, and_assoc]

theorem recordEq_symm (a b : PageStatisticsRecord) : recordEq a b = recordEq b a := by
  rw [Bool.eq_iff_iff, recordEq_iff, recordEq_iff]
  constructor <;>
    (rintro ⟨h1, h2, h3, h4, h5, h6⟩
     exact ⟨h1.symm, h2.symm, h3.symm, h4.symm, h5.symm, h6.symm⟩)

theorem recordEq_refl (a : PageStatisticsRecord) : recordEq a a = true :=
  recordEq_iff.mpr ⟨rfl, rfl, rfl, rfl, rfl, rfl⟩

/-- Worker for `pySet`: scans the list left to right, keeping an element only
when no already-kept element (`seen`) is equivalent to it. -/
def pySetGo (eqv : α → α → Bool) (seen : List α) : List α → List α
  | [] => []
  | x :: xs =>
    if seen.any (fun s => eqv s x) then pySetGo eqv seen xs
    else x :: pySetGo eqv (x :: seen) xs

/-- Model of Python's `list(set(xs))` (and of pandas `drop_duplicates`, with
full-row equality as `eqv`): each equivalence class of `eqv` is represented by
its first occurrence.  A CPython `set` retains the first inserted member of
each class; its iteration order is unspecified, so we enumerate in
first-occurrence order — every theorem below depends only on membership and
duplicate-freeness, never on this enumeration order. -/
def pySet (eqv : α → α → Bool) (l : List α) : List α :=
  pySetGo eqv [] l

theorem pySetGo_subset {eqv : α → α → Bool} {seen l : List α} {x : α}
    (h : x ∈ pySetGo eqv seen l) : x ∈ l := by
  induction l generalizing seen with
  | nil => simp [pySetGo] at h
  | cons a as ih =>
    simp only [pySetGo] at h
    split at h
    · exact List.mem_cons_of_mem a (ih h)
    · rcases List.mem_cons.mp h with h | h
      · exact h ▸ List.mem_cons_self a as
      · exact List.mem_cons_of_mem a (ih h)

theorem pySetGo_not_seen {eqv : α → α → Bool} {seen l : List α} {y : α}
    (h : y ∈ pySetGo eqv seen l) : ∀ s ∈ seen, eqv s y = false := by
  induction l generalizing seen with
  | nil => simp [pySetGo] at h
  | cons a as ih =>
    simp only [pySetGo] at h
    split at h
    · exact ih h
    · rename_i hna
      intro s hs
      rcases List.mem_cons.mp h with rfl | hmem
      · cases hb : eqv s y with
        | false => rfl
        | true => exact absurd (List.any_eq_true.mpr ⟨s, hs, hb⟩) hna
      · exact ih hmem s (List.mem_cons_of_mem a hs)

theorem pySetGo_pairwise (eqv : α → α → Bool) (seen l : List α) :
    (pySetGo eqv seen l).Pairwise (fun a b => eqv a b = false) := by
  induction l generalizing seen with
  | nil => simp [pySetGo]
  | cons a as ih =>
    simp only [pySetGo]
    split
    · exact ih seen
    · refine List.Pairwise.cons ?_ (ih (a :: seen))
      intro y hy
      exact pySetGo_not_seen hy a (List.mem_cons_self a seen)

theorem pySet_pairwise (eqv : α → α → Bool) (l : List α) :
    (pySet eqv l).Pairwise (fun a b => eqv a b = false) :=
  pySetGo_pairwise eqv [] l

theorem pySet_subset {eqv : α → α → Bool} {l : List α} {x : α}
    (h : x ∈ pySet eqv l) : x ∈ l :=
  pySetGo_subset h

/-- When `eqv` coincides with equality, `pySetGo` keeps exactly the elements
not already seen. -/
theorem pySetGo_mem_iff {eqv : α → α → Bool}
    (heqv : ∀ a b, eqv a b = true ↔ a = b) (seen l : List α) (x : α) :
    x ∈ pySetGo eqv seen l ↔ x ∈ l ∧ x ∉ seen := by
  induction l generalizing seen with
  | nil => simp [pySetGo]
  | cons a as ih =>
    simp only [pySetGo]
    split
    · rename_i hseen
      have ha : a ∈ seen := by
        rcases List.any_eq_true.mp hseen with ⟨s, hs, hsa⟩
        exact ((heqv s a).mp hsa) ▸ hs
      simp only [List.mem_cons, ih]
      constructor
      · rintro ⟨h1, h2⟩
        exact ⟨Or.inr h1, h2⟩
      · rintro ⟨h1 | h1, h2⟩
        · exact absurd (h1.symm ▸ ha) h2
        · exact ⟨h1, h2⟩
    · rename_i hseen
      have ha : a ∉ seen := fun hmem =>
        hseen (List.any_eq_true.mpr ⟨a, hmem, (heqv a a).mpr rfl⟩)
      simp only [List.mem_cons, ih]
      constructor
      · rintro (rfl | ⟨h1, h2⟩)
        · exact ⟨Or.inl rfl, ha⟩
        · exact ⟨Or.inr h1, fun hx => h2 (Or.inr hx)⟩
      · rintro ⟨h1 | h1, h2⟩
        · exact Or.inl h1
        · by_cases hx : x = a
          · exact Or.inl hx
          · exact Or.inr ⟨h1, fun hmem => hmem.elim hx h2⟩

/-- `list(set(l))` preserves membership when `eqv` is equality. -/
theorem pySet_mem_iff {eqv : α → α → Bool}
    (heqv : ∀ a b, eqv a b = true ↔ a = b) (l : List α) (x : α) :
    x ∈ pySet eqv l ↔ x ∈ l := by
  rw [pySet, pySetGo_mem_iff heqv]
  simp

/-- If every element of `l` is equivalent to something already seen,
`pySetGo` keeps nothing. -/
theorem pySetGo_eq_nil {eqv : α → α → Bool} {seen l : List α}
    (h : ∀ y ∈ l, ∃ s ∈ seen, eqv s y = true) : pySetGo eqv seen l = [] := by
  induction l with
  | nil => rfl
  | cons a as ih =>
    simp only [pySetGo]
    rcases h a (List.mem_cons_self a as) with ⟨s, hs, hsa⟩
    rw [if_pos (List.any_eq_true.mpr ⟨s, hs, hsa⟩)]
    exact ih fun y hy => h y (List.mem_cons_of_mem a hy)

/-- Deduplicating a non-empty list whose elements are pairwise equivalent
produces a single element. -/
theorem pySet_length_one {eqv : α → α → Bool} {l : List α}
    (hne : l ≠ [])
    (hall : ∀ x ∈ l, ∀ y ∈ l, eqv x y = true) :
    (pySet eqv l).length = 1 := by
  cases l with
  | nil => exact absurd rfl hne
  | cons a as =>
    have h1 : pySet eqv (a :: as) = a :: pySetGo eqv [a] as := by
      simp [pySet, pySetGo]
    rw [h1, pySetGo_eq_nil]
    · rfl
    · intro y hy
      exact ⟨a, List.mem_cons_self a [],
        hall a (List.mem_cons_self a as) y (List.mem_cons_of_mem a hy)⟩

theorem pySet_ne_nil {eqv : α → α → Bool} {l : List α} (h : l ≠ []) :
    pySet eqv l ≠ [] := by
  cases l with
  | nil => exact absurd rfl h
  | cons a as =>
    simp [pySet, pySetGo]

/-- Does `pre` begin `s`?  If so return the remainder of `s`. -/
def stripPrefixChars : List Char → List Char → Option (List Char)
  | [], s => some s
  | _ :: _, [] => none
  | p :: ps, c :: cs => if p = c then stripPrefixChars ps cs else none

/-- `\w` of the `re` module.  Python's `\w` is Unicode-aware; the source only
ever feeds URLs whose host and the claims only exercise ASCII, so we use the
ASCII word characters (letters, digits, underscore). -/
def isWordChar (c : Char) : Bool :=
  c.isAlphanum || c = '_'

/-- `re.match(r"https://(\w+\.wikipedia).org/wiki/([^/#]+)", url)` from
`WikimediaRequest._parse_url`, returning the two captured groups.

The pattern leaves the dot before `org` unescaped, so that position matches
any single character except a newline.  The match is deterministic even
though `re` backtracks: `\w+` must take the maximal run of word characters
(shortening it would place a word character where the literal `.` of
`\.wikipedia` is required, which always fails), the unescaped `.` consumes
exactly one character, and the final `[^/#]+` has nothing after it, so it
takes the maximal non-empty run of characters other than `/` and `#`.
`re.match` anchors at the start only; trailing text is ignored. -/
def pyParseUrl (url : String) : Option (String × String) :=
  match stripPrefixChars "https://".data url.data with
  | none => none
  | some rest =>
    let w := rest.takeWhile isWordChar
    let rest1 := rest.dropWhile isWordChar
    if w.isEmpty then none
    else
      match stripPrefixChars ".wikipedia".data rest1 with
      | none => none
      | some rest2 =>
        match rest2 with
        | [] => none
        | c :: rest3 =>
          if c = '\n' then none
          else
            match stripPrefixChars "org/wiki/".data rest3 with
            | none => none
            | some rest4 =>
              let article := rest4.takeWhile (fun ch => !(ch = '/' || ch = '#'))
              if article.isEmpty then none
              else some (String.mk (w ++ ".wikipedia".data), String.mk article)

/-- The URL pattern as the specification words it:
`https://(\w+\.wikipedia)\.org/wiki/([^/#]+)` — identical to `pyParseUrl`
except that the dot before `org` is escaped, so only a literal `.` is
accepted there. -/
def specParseUrl (url : String) : Option (String × String) :=
  match stripPrefixChars "https://".data url.data with
  | none => none
  | some rest =>
    let w := rest.takeWhile isWordChar
    let rest1 := rest.dropWhile isWordChar
    if w.isEmpty then none
    else
      match stripPrefixChars ".wikipedia".data rest1 with
      | none => none
      | some rest2 =>
        match rest2 with
        | [] => none
        | c :: rest3 =>
          if c = '.' then
            match stripPrefixChars "org/wiki/".data rest3 with
            | none => none
            | some rest4 =>
              let article := rest4.takeWhile (fun ch => !(ch = '/' || ch = '#'))
              if article.isEmpty then none
              else some (String.mk (w ++ ".wikipedia".data), String.mk article)
          else none

/-- `types.WikimediaRequest`: an immutable request value. -/
structure WikimediaRequest where
  url : String
  start_timestamp : Date
  end_timestamp : Date
  granularity : DateGranularity := DateGranularity.Daily
  access : AccessType := AccessType.Any
  agent : UserAgent := UserAgent.User
deriving DecidableEq, Repr

/-- `WikimediaRequest._parse_url`: extract `(project, article)` from the
source URL; `none` models the `ValueError("Unprocessable URL: ...")`. -/
def WikimediaRequest.parse_url (req : WikimediaRequest) : Option (String × String) :=
  pyParseUrl req.url

/-- `WikimediaRequest.as_url`: render the request into the API URL path.
Python sorts the two timestamps ascending (`sorted`, modelled by the stable
`List.insertionSort`, though on two elements any sort agrees), formats both
with `strftime("%Y%m%d00")` and joins all components with `/`.  The sorted
list of two dates provably has two elements; `getD` extracts them. -/
def WikimediaRequest.as_url (req : WikimediaRequest) : Option String :=
  match req.parse_url with
  | none => none
  | some (project, article) =>
    let sortedDates := List.insertionSort Date.le
      [req.start_timestamp, req.end_timestamp]
    let startStr := (sortedDates.getD 0 req.start_timestamp).strftimeYmd00
    let endStr := (sortedDates.getD 1 req.end_timestamp).strftimeYmd00
    some ("/" ++ project ++ "/" ++ req.access.value ++ "/" ++ req.agent.value ++
      "/" ++ article ++ "/" ++ req.granularity.value ++ "/" ++ startStr ++
      "/" ++ endStr)

/-- Python exceptions raised by the embedded code. -/
inductive PyError where
  | indexError
  | valueError (msg : String)
deriving DecidableEq, Repr

/-- `datetime.strptime(s, "%Y%m%d00").date()`: four year digits, two month
digits, two day digits and the literal `00`; the month, day (and year ≥ 1)
must form a real calendar date.  CPython's `%m`/`%d` would also accept a
single digit, shifting the remaining fields; the API's timestamps are always
in the fixed ten-character form modelled here. -/
def parseTimestamp (s : String) : Option Date :=
  match s.data with
  | [y1, y2, y3, y4, m1, m2, d1, d2, '0', '0'] =>
    if y1.isDigit && y2.isDigit && y3.isDigit && y4.isDigit &&
       m1.isDigit && m2.isDigit && d1.isDigit && d2.isDigit then
      let y := ((y1.toNat - 48) * 1000 + (y2.toNat - 48) * 100 +
                (y3.toNat - 48) * 10 + (y4.toNat - 48))
      let m := (m1.toNat - 48) * 10 + (m2.toNat - 48)
      let d := (d1.toNat - 48) * 10 + (d2.toNat - 48)
      let daysInMonth :=
        if m = 2 then
          if y % 4 = 0 && (y % 100 ≠ 0 || y % 400 = 0) then 29 else 28
        else if m = 4 || m = 6 || m = 9 || m = 11 then 30
        else 31
      if 1 ≤ y && 1 ≤ m && m ≤ 12 && 1 ≤ d && d ≤ daysInMonth then
        some ⟨y, m, d⟩
      else none
    else none
  | _ => none

/-- Decimal digits to a number: `none` unless the characters are one or more
digits. -/
def digitsToNat (cs : List Char) : Option Nat :=
  if !cs.isEmpty && cs.all (fun c => c.isDigit) then
    some (cs.foldl (fun n c => n * 10 + (c.toNat - 48)) 0)
  else none

/-- Python `int(s)` on the plain decimal strings the API produces: an
optional sign followed by digits.  (Python additionally strips whitespace
and allows underscore separators; the response fields never contain
either.) -/
def pyInt (s : String) : Option Int :=
  match s.data with
  | '-' :: rest => (digitsToNat rest).map (fun n => -(n : Int))
  | '+' :: rest => (digitsToNat rest).map (fun n => (n : Int))
  | rest => (digitsToNat rest).map (fun n => (n : Int))

/-- `PageStatisticsRecord.from_dict`: the raw response item, with the
string-typed fields the API returns.  The numeric `views` field is passed to
Python's `int`, modelled by `pyInt`. -/
structure RawItem where
  timestamp : String
  access : String
  granularity : String
  agent : String
  views : String
  project : String
  article : String
deriving DecidableEq, Repr

/-- `PageStatisticsRecord.from_dict`: converts a response item into a record,
failing with `ValueError` at the first field whose string is not recognised
(timestamp, then access, then granularity, then agent, then views — the
order of the assignments in the source). -/
def PageStatisticsRecord.from_dict (data : RawItem) : Except PyError PageStatisticsRecord :=
  match parseTimestamp data.timestamp with
  | none => .error (.valueError ("time data " ++ data.timestamp ++
      " does not match format %Y%m%d00"))
  | some ts =>
    match AccessType.ofValue data.access with
    | none => .error (.valueError (data.access ++ " is not a valid AccessType"))
    | some access =>
      match DateGranularity.ofValue data.granularity with
      | none => .error (.valueError (data.granularity ++
          " is not a valid DateGranularity"))
      | some g =>
        match UserAgent.ofValue data.agent with
        | none => .error (.valueError (data.agent ++ " is not a valid UserAgent"))
        | some agent =>
          match pyInt data.views with
          | none => .error (.valueError ("invalid literal for int: " ++ data.views))
          | some views =>
            .ok { project := data.project, article := data.article,
                  granularity := g, timestamp := ts, access := access,
                  agent := agent, views := views }

theorem sortPair_le {a b : Date} (h : Date.le a b) :
    List.insertionSort Date.le [a, b] = [a, b] := by
  simp [List.insertionSort, List.orderedInsert, h]

theorem sortPair_not_le {a b : Date} (h : ¬ Date.le a b) :
    List.insertionSort Date.le [a, b] = [b, a] := by
  simp [List.insertionSort, List.orderedInsert, h]

/-- C1: the claim says `_parse_url` succeeds exactly on URLs matching
`https://(\w+\.wikipedia)\.org/wiki/([^/#]+)`.  The source regex leaves the
dot before `org` unescaped, so it also accepts hosts such as
`ru.wikipediaXorg`: parsing (and hence `as_url`) succeeds there, while the
specified pattern rejects it.  On well-formed `.org` URLs the two patterns
agree. -/
theorem c1_parse_url_unescaped_dot :
    pyParseUrl "https://ru.wikipediaXorg/wiki/article" =
      some ("ru.wikipedia", "article") ∧
    specParseUrl "https://ru.wikipediaXorg/wiki/article" = none ∧
    WikimediaRequest.as_url
        ⟨"https://ru.wikipediaXorg/wiki/article", ⟨2025, 1, 1⟩, ⟨2025, 1, 10⟩,
         DateGranularity.Daily, AccessType.Any, UserAgent.User⟩ =
      some "/ru.wikipedia/all-access/user/article/daily/2025010100/2025011000" ∧
    pyParseUrl "https://ru.wikipedia.org/wiki/article" =
      some ("ru.wikipedia", "article") ∧
    specParseUrl "https://ru.wikipedia.org/wiki/article" =
      some ("ru.wikipedia", "article") := by
  refine ⟨?_, ?_, ?_, ?_, ?_⟩ <;> rfl

/-- C5: rendering a request to a path is invariant under swapping the start
and end dates, for every URL and every pair of dates, because the pair is
sorted ascending before formatting. -/
theorem c5_as_url_swap_dates (url : String) (a b : Date) (g : DateGranularity)
    (acc : AccessType) (ag : UserAgent) :
    WikimediaRequest.as_url ⟨url, a, b, g, acc, ag⟩ =
      WikimediaRequest.as_url ⟨url, b, a, g, acc, ag⟩ := by
  cases hp : pyParseUrl url with
  | none => simp [WikimediaRequest.as_url, WikimediaRequest.parse_url, hp]
  | some pa =>
    obtain ⟨p, art⟩ := pa
    by_cases h1 : Date.le a b
    · by_cases h2 : Date.le b a
      · have heq : a = b := Date.eq_of_le_of_le h1 h2
        subst heq
        rfl
      · simp [WikimediaRequest.as_url, WikimediaRequest.parse_url, hp, h1, h2]
    · have h2 : Date.le b a := (Date.le_total_thm a b).resolve_left h1
      simp [WikimediaRequest.as_url, WikimediaRequest.parse_url, hp, h1, h2]

/-- C10: the serialized monthly granularity is the capitalized `Monthly`
while daily is lowercase `daily`; a request with monthly granularity renders
with `Monthly` as its granularity path segment; `from_dict` rejects a
response item whose granularity field is the lowercase `monthly` with an
invalid-value error, and accepts `Monthly`. -/
theorem c10_monthly_capitalization :
    DateGranularity.Monthly.value = "Monthly" ∧
    DateGranularity.Daily.value = "daily" ∧
    WikimediaRequest.as_url
        ⟨"https://ru.wikipedia.org/wiki/article", ⟨2025, 1, 1⟩, ⟨2025, 1, 10⟩,
         DateGranularity.Monthly, AccessType.Any, UserAgent.User⟩ =
      some "/ru.wikipedia/all-access/user/article/Monthly/2025010100/2025011000" ∧
    PageStatisticsRecord.from_dict
        ⟨"2025010100", "all-access", "monthly", "user", "100",
         "ru.wikipedia", "test-article"⟩ =
      .error (.valueError "monthly is not a valid DateGranularity") ∧
    PageStatisticsRecord.from_dict
        ⟨"2025010100", "all-access", "Monthly", "user", "100",
         "ru.wikipedia", "test-article"⟩ =
      .ok ⟨"ru.wikipedia", "test-article", DateGranularity.Monthly,
           ⟨2025, 1, 1⟩, AccessType.Any, UserAgent.User, 100⟩ := by
  refine ⟨rfl, rfl, ?_, ?_, ?_⟩ <;> rfl

/-- The order `sorted(..., key=lambda r: r.timestamp)` sorts by. -/
def byTimestamp (a b : PageStatisticsRecord) : Prop :=
  Date.le a.timestamp b.timestamp

/-- The order `sorted(..., key=lambda r: r.views)` sorts by. -/
def byViews (a b : PageStatisticsRecord) : Prop :=
  a.views ≤ b.views

instance (a b : PageStatisticsRecord) : Decidable (byTimestamp a b) := by
  unfold byTimestamp; infer_instance

instance (a b : PageStatisticsRecord) : Decidable (byViews a b) := by
  unfold byViews; infer_instance

instance : IsTotal PageStatisticsRecord byTimestamp :=
  ⟨fun a b => Date.le_total_thm a.timestamp b.timestamp⟩

instance : IsTrans PageStatisticsRecord byTimestamp :=
  ⟨fun _ _ _ h₁ h₂ => Date.le_trans_thm h₁ h₂⟩

instance : IsTotal PageStatisticsRecord byViews :=
  ⟨fun a b => Int.le_total a.views b.views⟩

instance : IsTrans PageStatisticsRecord byViews :=
  ⟨fun _ _ _ h₁ h₂ => Int.le_trans h₁ h₂⟩

/-- `types.PageStatistics`: one article's statistics.  The identity fields
are seeded from the first record; `records` holds the deduplicated,
timestamp-sorted record list. -/
structure PageStatistics where
  article : String
  granularity : DateGranularity
  access : AccessType
  agent : UserAgent
  project : String
  records : List PageStatisticsRecord
deriving DecidableEq, Repr

/-- `PageStatistics.__init__`.  `records[0]` raises `IndexError` on an empty
argument list; a record disagreeing with the first on article, granularity,
access, agent or project raises `ValueError("Inconsistent records")`;
otherwise the stored list is `sorted(list(set(records)), key=timestamp)` —
deduplication by the views-ignoring `__eq__`/`__hash__`, then a stable sort
by timestamp. -/
def PageStatistics.init (records : List PageStatisticsRecord) :
    Except PyError PageStatistics :=
  match records with
  | [] => .error .indexError
  | r0 :: _ =>
    if records.any (fun r =>
        r.article != r0.article || r.granularity != r0.granularity ||
        r.access != r0.access || r.agent != r0.agent ||
        r.project != r0.project) then
      .error (.valueError "Inconsistent records")
    else
      .ok { article := r0.article, granularity := r0.granularity,
            access := r0.access, agent := r0.agent, project := r0.project,
            records := List.insertionSort byTimestamp (pySet recordEq records) }

/-- `PageStatistics.records_count`. -/
def PageStatistics.records_count (ps : PageStatistics) : Nat :=
  ps.records.length

/-- `PageStatistics.top_views_record`:
`sorted(self.records, key=lambda r: r.views)[-1]` — a stable sort by view
count, then the last element; `[-1]` on an empty list raises `IndexError`,
modelled by `none`. -/
def PageStatistics.top_views_record (ps : PageStatistics) :
    Option PageStatisticsRecord :=
  (List.insertionSort byViews ps.records).getLast?

/-- `PageStatistics.total_views`. -/
def PageStatistics.total_views (ps : PageStatistics) : Int :=
  (ps.records.map (fun r => r.views)).sum

/-- C7: constructing a `PageStatistics` from zero records fails (the
`records[0]` seeding raises `IndexError`) rather than producing an empty
object. -/
theorem c7_init_empty_fails :
    PageStatistics.init [] = .error .indexError := rfl

/-- C6: construction from a non-empty record sequence fails with the
Inconsistent-records error exactly when some record disagrees with the first
on project, article, granularity, access or agent, and succeeds when all
records agree on those five fields. -/
theorem c6_init_consistency (rs : List PageStatisticsRecord)
    (r0 : PageStatisticsRecord) (h : rs.head? = some r0) :
    ((∃ r ∈ rs, r.article ≠ r0.article ∨ r.granularity ≠ r0.granularity ∨
        r.access ≠ r0.access ∨ r.agent ≠ r0.agent ∨ r.project ≠ r0.project) →
      PageStatistics.init rs = .error (.valueError "Inconsistent records")) ∧
    ((∀ r ∈ rs, r.article = r0.article ∧ r.granularity = r0.granularity ∧
        r.access = r0.access ∧ r.agent = r0.agent ∧ r.project = r0.project) →
      ∃ ps, PageStatistics.init rs = .ok ps) := by
  cases rs with
  | nil => simp at h
  | cons a as =>
    rw [List.head?_cons, Option.some_inj] at h
    subst h
    constructor
    · intro hbad
      have hany : (a :: as).any (fun r =>
          r.article != a.article || r.granularity != a.granularity ||
          r.access != a.access || r.agent != a.agent ||
          r.project != a.project) = true := by
        rcases hbad with ⟨r, hr, hne⟩
        refine List.any_eq_true.mpr ⟨r, hr, ?_⟩
        simp only [Bool.or_eq_true, bne_iff_ne]
        tauto
      simp [PageStatistics.init, hany]
    · intro hgood
      have hany : (a :: as).any (fun r =>
          r.article != a.article || r.granularity != a.granularity ||
          r.access != a.access || r.agent != a.agent ||
          r.project != a.project) = false := by
        rw [← Bool.not_eq_true]
        intro hc
        rcases List.any_eq_true.mp hc with ⟨r, hr, hne⟩
        simp only [Bool.or_eq_true, bne_iff_ne] at hne
        rcases hgood r hr with ⟨h1, h2, h3, h4, h5⟩
        tauto
      refine ⟨{ article := a.article, granularity := a.granularity,
                access := a.access, agent := a.agent, project := a.project,
                records := List.insertionSort byTimestamp
                  (pySet recordEq (a :: as)) }, ?_⟩
      simp [PageStatistics.init, hany]

/-- The last element of a list that is pairwise related left-to-right is
related to (or equal to) every element. -/
theorem pairwise_getLast_rel {R : PageStatisticsRecord → PageStatisticsRecord → Prop} :
    ∀ {l : List PageStatisticsRecord} {y : PageStatisticsRecord},
      l.Pairwise R → l.getLast? = some y → ∀ x ∈ l, x = y ∨ R x y := by
  intro l
  induction l with
  | nil => intro y _ hg x hx; simp at hg
  | cons a as ih =>
    intro y hp hg x hx
    cases as with
    | nil =>
      simp only [List.getLast?_singleton, Option.some_inj] at hg
      simp only [List.mem_singleton] at hx
      exact Or.inl (hx.trans hg)
    | cons b bs =>
      rw [List.getLast?_cons_cons] at hg
      rcases List.mem_cons.mp hx with rfl | hx'
      · have hy : y ∈ b :: bs := List.mem_of_getLast?_eq_some hg
        exact Or.inr ((List.pairwise_cons.mp hp).1 y hy)
      · exact ih (List.pairwise_cons.mp hp).2 hg x hx'

/-- Filtering by a predicate the last element satisfies keeps it last. -/
theorem getLast_filter_eq (p : PageStatisticsRecord → Bool) :
    ∀ {l : List PageStatisticsRecord} {y : PageStatisticsRecord},
      l.getLast? = some y → p y = true → (l.filter p).getLast? = some y := by
  intro l
  induction l with
  | nil => intro y hg _; simp at hg
  | cons a as ih =>
    intro y hg hp
    cases as with
    | nil =>
      simp only [List.getLast?_singleton, Option.some_inj] at hg
      subst hg
      simp [List.filter_cons, hp]
    | cons b bs =>
      rw [List.getLast?_cons_cons] at hg
      have ih' := ih hg hp
      rw [List.filter_cons]
      split
      · cases ht : (b :: bs).filter p with
        | nil => rw [ht] at ih'; simp at ih'
        | cons c cs =>
          rw [ht] at ih'
          rw [List.getLast?_cons_cons]
          exact ih'
      · exact ih'

/-- What a successful `PageStatistics.init` guarantees: the input was
non-empty, the stored record list is the timestamp-sorted deduplication of
the input, and all input records agree on the five identity fields. -/
theorem init_ok_inv {rs : List PageStatisticsRecord} {ps : PageStatistics}
    (h : PageStatistics.init rs = .ok ps) :
    rs ≠ [] ∧
    ps.records = List.insertionSort byTimestamp (pySet recordEq rs) ∧
    (∀ r ∈ rs, ∀ s ∈ rs, r.article = s.article ∧ r.granularity = s.granularity ∧
      r.access = s.access ∧ r.agent = s.agent ∧ r.project = s.project) := by
  cases rs with
  | nil => simp [PageStatistics.init] at h
  | cons r0 tl =>
    rw [PageStatistics.init] at h
    split at h
    · simp at h
    · rename_i hany
      rw [Except.ok.injEq] at h
      subst h
      refine ⟨by simp, rfl, ?_⟩
      have hall : ∀ r ∈ r0 :: tl, r.article = r0.article ∧
          r.granularity = r0.granularity ∧ r.access = r0.access ∧
          r.agent = r0.agent ∧ r.project = r0.project := by
        intro r hr
        by_contra hc
        apply hany
        refine List.any_eq_true.mpr ⟨r, hr, ?_⟩
        simp only [Bool.or_eq_true, bne_iff_ne]
        tauto
      intro r hr s hs
      obtain ⟨h1, h2, h3, h4, h5⟩ := hall r hr
      obtain ⟨g1, g2, g3, g4, g5⟩ := hall s hs
      exact ⟨h1.trans g1.symm, h2.trans g2.symm, h3.trans g3.symm,
        h4.trans g4.symm, h5.trans g5.symm⟩

/-- The heart of C2: for a record list with strictly increasing timestamps,
the last element of the stable sort by views is a maximum-views record, and
every record tying that maximum has an earlier-or-equal timestamp.
Stability enters through `List.sublist_insertionSort`: the tied records form
a sorted sublist of the input, so they keep their relative (timestamp)
order in the sorted output, and the overall last element is the last of
them. -/
theorem stable_sort_last_spec (l : List PageStatisticsRecord) (hlne : l ≠ [])
    (hstrict : l.Pairwise fun a b => Date.lt a.timestamp b.timestamp) :
    ∃ r, (List.insertionSort byViews l).getLast? = some r ∧ r ∈ l ∧
      (∀ s ∈ l, s.views ≤ r.views) ∧
      (∀ s ∈ l, s.views = r.views → Date.le s.timestamp r.timestamp) := by
  have hm_perm : List.Perm (List.insertionSort byViews l) l :=
    List.perm_insertionSort byViews l
  have hm_ne : List.insertionSort byViews l ≠ [] := by
    intro hc
    have hlen := congrArg List.length hc
    rw [List.length_insertionSort] at hlen
    exact hlne (List.length_eq_zero.mp hlen)
  obtain ⟨r, hr_last⟩ : ∃ r, (List.insertionSort byViews l).getLast? = some r := by
    cases hg : (List.insertionSort byViews l).getLast? with
    | none => exact absurd (List.getLast?_eq_none_iff.mp hg) hm_ne
    | some r => exact ⟨r, rfl⟩
  have hm_sorted : (List.insertionSort byViews l).Pairwise byViews :=
    List.sorted_insertionSort byViews l
  have hr_mem : r ∈ l := hm_perm.mem_iff.mp (List.mem_of_getLast?_eq_some hr_last)
  refine ⟨r, hr_last, hr_mem, ?_, ?_⟩
  · intro s hs
    have hs_m : s ∈ List.insertionSort byViews l := hm_perm.mem_iff.mpr hs
    rcases pairwise_getLast_rel hm_sorted hr_last s hs_m with rfl | hrel
    · exact le_refl _
    · exact hrel
  · intro s hs hsv
    have hpr : (fun t : PageStatisticsRecord => t.views == r.views) r = true := by simp
    have hc_pw : (l.filter (fun t => t.views == r.views)).Pairwise byViews := by
      refine List.pairwise_of_forall_mem_list ?_
      intro a ha b hb
      have ha' := (List.mem_filter.mp ha).2
      have hb' := (List.mem_filter.mp hb).2
      simp only [beq_iff_eq] at ha' hb'
      show a.views ≤ b.views
      rw [ha', hb']
    have hc_sub_m : List.Sublist (l.filter (fun t => t.views == r.views))
        (List.insertionSort byViews l) :=
      List.sublist_insertionSort hc_pw (List.filter_sublist l)
    have hfilter_eq : l.filter (fun t => t.views == r.views) =
        (List.insertionSort byViews l).filter (fun t => t.views == r.views) := by
      have h1 : (l.filter (fun t => t.views == r.views)).filter
          (fun t => t.views == r.views) = l.filter (fun t => t.views == r.views) :=
        List.filter_eq_self.mpr (fun a ha => (List.mem_filter.mp ha).2)
      have h2 := hc_sub_m.filter (fun t => t.views == r.views)
      rw [h1] at h2
      refine h2.eq_of_length ?_
      exact ((hm_perm.filter (fun t => t.views == r.views)).length_eq).symm
    have hlast_c : (l.filter (fun t => t.views == r.views)).getLast? = some r := by
      rw [hfilter_eq]
      exact getLast_filter_eq _ hr_last hpr
    have hc_strict : (l.filter (fun t => t.views == r.views)).Pairwise
        (fun a b => Date.lt a.timestamp b.timestamp) :=
      List.Pairwise.sublist (List.filter_sublist l) hstrict
    have hs_c : s ∈ l.filter (fun t => t.views == r.views) :=
      List.mem_filter.mpr ⟨hs, by simp [hsv]⟩
    rcases pairwise_getLast_rel hc_strict hlast_c s hs_c with rfl | hlt
    · exact Date.le_refl_thm _
    · exact Date.le_of_lt_thm hlt

/-- C2: for every successfully constructed `PageStatistics`,
`top_views_record` returns a record of maximum view count, and among records
tying that maximum the one with the latest timestamp: every tied record's
timestamp is `≤` the returned record's (the stored list is sorted by
timestamp with distinct timestamps, and the stable sort by views keeps the
last equal maximum). -/
theorem c2_top_views_record (rs : List PageStatisticsRecord)
    (ps : PageStatistics) (h : PageStatistics.init rs = .ok ps) :
    ∃ r, ps.top_views_record = some r ∧ r ∈ ps.records ∧
      (∀ s ∈ ps.records, s.views ≤ r.views) ∧
      (∀ s ∈ ps.records, s.views = r.views → Date.le s.timestamp r.timestamp) := by
  obtain ⟨hne, hrec, hagree⟩ := init_ok_inv h
  have hperm_l : List.Perm ps.records (pySet recordEq rs) := by
    rw [hrec]; exact List.perm_insertionSort byTimestamp _
  have hlne : ps.records ≠ [] := by
    intro hc
    have hlen := congrArg List.length hc
    rw [hrec, List.length_insertionSort] at hlen
    exact pySet_ne_nil hne (List.length_eq_zero.mp hlen)
  have hsorted : ps.records.Pairwise byTimestamp := by
    rw [hrec]; exact List.sorted_insertionSort byTimestamp _
  have hpw_ne : ps.records.Pairwise (fun a b => recordEq a b = false) := by
    refine (List.Perm.pairwise_iff ?_ hperm_l).mpr (pySet_pairwise recordEq rs)
    intro x y hxy
    rw [recordEq_symm]
    exact hxy
  have hmem_rs : ∀ x ∈ ps.records, x ∈ rs := fun x hx =>
    pySet_subset (hperm_l.mem_iff.mp hx)
  have hstrict : ps.records.Pairwise
      (fun a b => Date.lt a.timestamp b.timestamp) := by
    refine (hsorted.and hpw_ne).imp_of_mem ?_
    intro a b ha hb hab
    refine Date.lt_of_le_of_ne hab.1 ?_
    intro hts
    have hf := hagree a (hmem_rs a ha) b (hmem_rs b hb)
    have : recordEq a b = true :=
      recordEq_iff.mpr ⟨hf.2.2.2.2, hf.1, hf.2.1, hts, hf.2.2.1, hf.2.2.2.1⟩
    rw [this] at hab
    exact absurd hab.2 (by simp)
  obtain ⟨r, hr_last, hr_mem, hmax, htie⟩ := stable_sort_last_spec ps.records hlne hstrict
  exact ⟨r, hr_last, hr_mem, hmax, htie⟩

/-- C3: records that agree on the six hashed fields are `__eq__`-equal and
hash-equal; a non-empty collection of pairwise-equal records collapses to a
single element under set deduplication; records differing in any field
other than views compare unequal. -/
theorem c3_record_partial_equality :
    (∀ a b : PageStatisticsRecord,
        a.project = b.project → a.article = b.article →
        a.granularity = b.granularity → a.timestamp = b.timestamp →
        a.access = b.access → a.agent = b.agent →
        recordEq a b = true ∧ recordHashKey a = recordHashKey b) ∧
    (∀ l : List PageStatisticsRecord, l ≠ [] →
        (∀ x ∈ l, ∀ y ∈ l, recordEq x y = true) →
        (pySet recordEq l).length = 1) ∧
    (∀ a b : PageStatisticsRecord,
        (a.project ≠ b.project ∨ a.article ≠ b.article ∨
         a.granularity ≠ b.granularity ∨ a.timestamp ≠ b.timestamp ∨
         a.access ≠ b.access ∨ a.agent ≠ b.agent) →
        recordEq a b = false) := by
  refine ⟨?_, ?_, ?_⟩
  · intro a b h1 h2 h3 h4 h5 h6
    refine ⟨recordEq_iff.mpr ⟨h1, h2, h3, h4, h5, h6⟩, ?_⟩
    simp [recordHashKey, h1, h2, h3, h4, h5, h6]
  · intro l hne hall
    exact pySet_length_one hne hall
  · intro a b hdiff
    rw [← Bool.not_eq_true]
    intro hc
    have hfields := recordEq_iff.mp hc
    tauto

/-- Fuel-driven worker for `chunksOf`; the fuel bounds the number of loop
iterations and is instantiated with the list length, which suffices for any
positive chunk size. -/
def chunksGo (c : Nat) : Nat → List α → List (List α)
  | 0, _ => []
  | _ + 1, [] => []
  | fuel + 1, x :: xs => (x :: xs).take c :: chunksGo c fuel ((x :: xs).drop c)

/-- The slicing generator of `get_multiple_pages_statistics`:
`(pages[i : i + chunk_size] for i in range(0, len(pages), chunk_size))` —
consecutive slices of at most `chunk_size` elements.  (Python raises
`ValueError` on a zero step; the theorems assume `0 < chunk_size`.) -/
def chunksOf (c : Nat) (l : List α) : List (List α) :=
  chunksGo c l.length l

/-- The page handling of `WikimediaParser.get_multiple_pages_statistics`:
`pages = list(set(pages))`, then the chunk slices.  The network fetch of
each chunk is not part of this function; it captures which pages end up in
which chunk. -/
def get_multiple_pages_chunks (pages : List String) (chunk_size : Nat) :
    List (List String) :=
  chunksOf chunk_size (pySet (fun a b => a == b) pages)

theorem chunksGo_join {c : Nat} (hc : 0 < c) :
    ∀ (fuel : Nat) (l : List α), l.length ≤ fuel → (chunksGo c fuel l).flatten = l := by
  intro fuel
  induction fuel with
  | zero =>
    intro l hl
    have : l = [] := List.length_eq_zero.mp (Nat.le_zero.mp hl)
    subst this
    rfl
  | succ n ih =>
    intro l hl
    cases l with
    | nil => rfl
    | cons x xs =>
      simp only [chunksGo, List.flatten_cons]
      rw [ih]
      · exact List.take_append_drop c (x :: xs)
      · rw [List.length_drop]
        simp only [List.length_cons] at hl ⊢
        omega

theorem chunksGo_bounded {c : Nat} (hc : 0 < c) :
    ∀ (fuel : Nat) (l : List α), ∀ ch ∈ chunksGo c fuel l,
      ch.length ≤ c ∧ ch ≠ [] := by
  intro fuel
  induction fuel with
  | zero => intro l ch hch; simp [chunksGo] at hch
  | succ n ih =>
    intro l ch hch
    cases l with
    | nil => simp [chunksGo] at hch
    | cons x xs =>
      simp only [chunksGo] at hch
      rcases List.mem_cons.mp hch with rfl | hch'
      · constructor
        · rw [List.length_take]
          exact Nat.min_le_left _ _
        · cases c with
          | zero => omega
          | succ m => simp
      · exact ih _ ch hch'

theorem chunksGo_full {c : Nat} (hc : 0 < c) :
    ∀ (fuel : Nat) (l : List α), l.length ≤ fuel →
      ∀ i, i + 1 < (chunksGo c fuel l).length →
        ((chunksGo c fuel l).getD i []).length = c := by
  intro fuel
  induction fuel with
  | zero => intro l hl i hi; simp [chunksGo] at hi
  | succ n ih =>
    intro l hl i hi
    cases l with
    | nil => simp [chunksGo] at hi
    | cons x xs =>
      simp only [chunksGo] at hi ⊢
      cases i with
      | zero =>
        simp only [List.getD_cons_zero]
        rw [List.length_take]
        have hrest : (x :: xs).drop c ≠ [] := by
          intro hd
          rw [hd] at hi
          cases n <;> simp [chunksGo] at hi
        have hlt : c < (x :: xs).length := by
          by_contra hcl
          push_neg at hcl
          exact hrest (List.drop_eq_nil_of_le hcl)
        omega
      | succ j =>
        simp only [List.getD_cons_succ]
        refine ih _ ?_ j ?_
        · rw [List.length_drop]
          simp only [List.length_cons] at hl ⊢
          omega
        · rw [List.length_cons] at hi
          omega

/-- `list(set(l))` with genuine equality produces a duplicate-free list. -/
theorem pySet_nodup [DecidableEq α] (l : List α) :
    (pySet (fun a b => a == b) l).Nodup := by
  have hpw := pySet_pairwise (fun a b : α => a == b) l
  exact hpw.imp (fun hab => beq_eq_false_iff_ne.mp hab)

/-- C8: in the multi-page fetch, the input page list is deduplicated (each
unique page appears exactly once across all chunks) and then split into
consecutive chunks of at most `chunk_size` pages, every chunk non-empty and
all chunks except possibly the last of exactly `chunk_size` pages. -/
theorem c8_dedup_and_chunking (pages : List String) (chunk_size : Nat)
    (hc : 0 < chunk_size) :
    (pySet (fun a b => a == b) pages).Nodup ∧
    (∀ p, p ∈ pySet (fun a b => a == b) pages ↔ p ∈ pages) ∧
    (get_multiple_pages_chunks pages chunk_size).flatten =
      pySet (fun a b => a == b) pages ∧
    (∀ ch ∈ get_multiple_pages_chunks pages chunk_size,
      ch.length ≤ chunk_size ∧ ch ≠ []) ∧
    (∀ i, i + 1 < (get_multiple_pages_chunks pages chunk_size).length →
      ((get_multiple_pages_chunks pages chunk_size).getD i []).length =
        chunk_size) := by
  refine ⟨pySet_nodup pages, ?_, ?_, ?_, ?_⟩
  · intro p
    exact pySet_mem_iff (fun a b => beq_iff_eq) pages p
  · exact chunksGo_join hc _ _ (le_refl _)
  · exact fun ch hch => chunksGo_bounded hc _ _ ch hch
  · exact fun i hi => chunksGo_full hc _ _ (le_refl _) i hi

/-- `PageStatistics.to_df`: one DataFrame row per stored record, carrying
all seven columns; a row is modelled by the record itself, so the DataFrame
is the record list. -/
def PageStatistics.to_df (ps : PageStatistics) : List PageStatisticsRecord :=
  ps.records

/-- `WikimediaParser.concat_statistics`: convert every statistics to a
DataFrame, concatenate (`pd.concat` raises `ValueError` on an empty
argument sequence, modelled by `none`), `drop_duplicates()` — full-row
equality, first occurrence kept — and `reset_index(drop=True)`, a no-op on
a row list. -/
def concat_statistics (statistics : List PageStatistics) :
    Option (List PageStatisticsRecord) :=
  match statistics with
  | [] => none
  | _ => some (pySet (fun a b => a == b)
      ((statistics.map PageStatistics.to_df).flatten))

/-- C9: the exporter flattens all records of the given statistics into one
table and removes only full-row duplicates (equality on every column,
views included): membership is preserved, the result is duplicate-free
under full-row equality, and two rows agreeing on the six key fields but
differing in views are both kept. -/
theorem c9_concat_full_row_dedup (sts : List PageStatistics) (h : sts ≠ []) :
    ∃ rows, concat_statistics sts = some rows ∧
      (∀ x, x ∈ rows ↔ x ∈ (sts.map PageStatistics.to_df).flatten) ∧
      rows.Nodup ∧
      (∀ r s, r ∈ (sts.map PageStatistics.to_df).flatten →
        s ∈ (sts.map PageStatistics.to_df).flatten →
        recordEq r s = true → r.views ≠ s.views →
        r ∈ rows ∧ s ∈ rows) := by
  cases sts with
  | nil => exact absurd rfl h
  | cons st sts' =>
    refine ⟨pySet (fun a b => a == b)
      (((st :: sts').map PageStatistics.to_df).flatten), rfl, ?_, ?_, ?_⟩
    · intro x
      exact pySet_mem_iff (fun a b => beq_iff_eq) _ x
    · exact pySet_nodup _
    · intro r s hr hs _ _
      exact ⟨(pySet_mem_iff (fun a b => beq_iff_eq) _ r).mpr hr,
             (pySet_mem_iff (fun a b => beq_iff_eq) _ s).mpr hs⟩

/-- Concrete record: project/article on 2025-01-01 with 10 views. -/
def recA : PageStatisticsRecord :=
  ⟨"project", "article", DateGranularity.Daily, ⟨2025, 1, 1⟩,
   AccessType.Any, UserAgent.Any, 10⟩

/-- Same key as `recA`, different view count. -/
def recB : PageStatisticsRecord :=
  ⟨"project", "article", DateGranularity.Daily, ⟨2025, 1, 1⟩,
   AccessType.Any, UserAgent.Any, 15⟩

/-- Same as `recA` except the timestamp. -/
def recC : PageStatisticsRecord :=
  ⟨"project", "article", DateGranularity.Daily, ⟨2025, 1, 2⟩,
   AccessType.Any, UserAgent.Any, 10⟩

/-- Same as `recA` except the article. -/
def recOtherArticle : PageStatisticsRecord :=
  ⟨"project", "article-2", DateGranularity.Daily, ⟨2025, 1, 1⟩,
   AccessType.Any, UserAgent.Any, 10⟩

/-- Three records with a tie on the maximum view count (the two later
dates). -/
def rsTie : List PageStatisticsRecord :=
  [⟨"project", "article", DateGranularity.Daily, ⟨2025, 1, 1⟩,
    AccessType.Any, UserAgent.Any, 7⟩,
   ⟨"project", "article", DateGranularity.Daily, ⟨2025, 1, 2⟩,
    AccessType.Any, UserAgent.Any, 9⟩,
   ⟨"project", "article", DateGranularity.Daily, ⟨2025, 1, 3⟩,
    AccessType.Any, UserAgent.Any, 9⟩]

/-- The statistics object `PageStatistics.init rsTie` produces. -/
def psTie : PageStatistics :=
  ⟨"article", DateGranularity.Daily, AccessType.Any, UserAgent.Any,
   "project", rsTie⟩

theorem c2_witness :
    PageStatistics.init rsTie = .ok psTie ∧
    (∃ r, psTie.top_views_record = some r ∧ r ∈ psTie.records ∧
      (∀ s ∈ psTie.records, s.views ≤ r.views) ∧
      (∀ s ∈ psTie.records, s.views = r.views →
        Date.le s.timestamp r.timestamp)) ∧
    psTie.top_views_record =
      some ⟨"project", "article", DateGranularity.Daily, ⟨2025, 1, 3⟩,
            AccessType.Any, UserAgent.Any, 9⟩ :=
  ⟨rfl, c2_top_views_record rsTie psTie rfl, rfl⟩

theorem c3_witness :
    (recordEq recA recB = true ∧ recordHashKey recA = recordHashKey recB) ∧
    (pySet recordEq (List.replicate 100 recA)).length = 1 ∧
    recordEq recA recC = false := by
  refine ⟨?_, ?_, ?_⟩
  · exact c3_record_partial_equality.1 recA recB rfl rfl rfl rfl rfl rfl
  · refine c3_record_partial_equality.2.1 _ (by decide) ?_
    intro x hx y hy
    rw [List.eq_of_mem_replicate hx, List.eq_of_mem_replicate hy]
    exact recordEq_refl recA
  · refine c3_record_partial_equality.2.2 recA recC ?_
    exact Or.inr (Or.inr (Or.inr (Or.inl (by decide))))

theorem c6_witness :
    PageStatistics.init [recA, recOtherArticle] =
      .error (.valueError "Inconsistent records") ∧
    (∃ ps, PageStatistics.init [recA, recC] = .ok ps) := by
  constructor
  · refine (c6_init_consistency [recA, recOtherArticle] recA rfl).1 ?_
    exact ⟨recOtherArticle, by decide, Or.inl (by decide)⟩
  · refine (c6_init_consistency [recA, recC] recA rfl).2 ?_
    decide

/-- Twenty-five distinct pages. -/
def pages25 : List String :=
  ["a", "b", "c", "d", "e", "f", "g", "h", "i", "j", "k", "l", "m",
   "n", "o", "p", "q", "r", "s", "t", "u", "v", "w", "x", "y"]

theorem c8_witness :
    (0 < 10 ∧
      (get_multiple_pages_chunks pages25 10).flatten =
        pySet (fun a b => a == b) pages25) ∧
    (get_multiple_pages_chunks pages25 10).map List.length = [10, 10, 5] :=
  ⟨⟨by decide, (c8_dedup_and_chunking pages25 10 (by decide)).2.2.1⟩, by rfl⟩

/-- A statistics holding only `recA`. -/
def statA : PageStatistics :=
  ⟨"article", DateGranularity.Daily, AccessType.Any, UserAgent.Any,
   "project", [recA]⟩

/-- A statistics holding only `recB` (same key as `recA`, other views). -/
def statB : PageStatistics :=
  ⟨"article", DateGranularity.Daily, AccessType.Any, UserAgent.Any,
   "project", [recB]⟩

theorem c9_witness :
    concat_statistics [statA, statB, statA] = some [recA, recB] ∧
    (∃ rows, concat_statistics [statA, statB, statA] = some rows ∧
      rows.Nodup ∧ recA ∈ rows ∧ recB ∈ rows) := by
  constructor
  · rfl
  · obtain ⟨rows, h1, h2, h3, h4⟩ :=
      c9_concat_full_row_dedup [statA, statB, statA] (by decide)
    obtain ⟨hA, hB⟩ := h4 recA recB (by decide) (by decide) (by decide) (by decide)
    exact ⟨rows, h1, h3, hA, hB⟩
